import Mathlib

/- Verification of the line-reconstruction core of pdf_to_json.py.

   A text fragment carries a content string and a baseline vertical
   position; positions are modelled as rationals.  The grouping loop,
   the stable descending sort, the per-page join and the page separator
   logic are translated directly from convert_pdf_to_text; the visitor
   filter comes from visitor_body. -/

structure Fragment where
  content : String
  yPos : ℚ
deriving DecidableEq

/- text_elements.sort(key=lambda x: -x[1]) : a stable sort, descending
   on yPos, ties kept in original order.  Modelled as stable insertion
   sort: a fragment moves past strictly higher fragments only. -/

def insertFrag (f : Fragment) : List Fragment → List Fragment
  | [] => [f]
  | g :: gs => if f.yPos < g.yPos then g :: insertFrag f gs else f :: g :: gs

def sortFrags : List Fragment → List Fragment
  | [] => []
  | f :: fs => insertFrag f (sortFrags fs)

/- "if current_line: lines.append(...)" -/
def flushLine (curLine : List Fragment) : List (List Fragment) :=
  if curLine.isEmpty then [] else [curLine]

/- The grouping loop over the sorted fragments.  curY.getD f.yPos models
   "if current_y is None: current_y = y_pos".  Lines accumulate fragments;
   the source accumulates their contents, recovered below by joinLine. -/
def groupGo (t : ℚ) : List Fragment → List (List Fragment) → List Fragment → Option ℚ → List (List Fragment)
  | [], lines, curLine, _ => lines ++ flushLine curLine
  | f :: rest, lines, curLine, curY =>
    if |f.yPos - curY.getD f.yPos| ≤ t then
      groupGo t rest lines (curLine ++ [f]) (some (curY.getD f.yPos))
    else
      groupGo t rest (lines ++ flushLine curLine) [f] (some f.yPos)

def groupFragments (t : ℚ) (frags : List Fragment) : List (List Fragment) :=
  groupGo t (sortFrags frags) [] [] none

/- lines.append(' '.join(current_line)) -/
def joinLine (l : List Fragment) : String :=
  String.intercalate " " (l.map Fragment.content)

def groupFragmentsIntoLines (t : ℚ) (frags : List Fragment) : List String :=
  (groupFragments t frags).map joinLine

/- The representative y of a line: the position of its first fragment,
   which is the anchor the loop compares against. -/
def headY (l : List Fragment) : ℚ :=
  ((l.head?).map Fragment.yPos).getD 0

/- "\n\n--- Page {} ---\n\n".format(page_num + 1) -/
def pageSep (n : ℕ) : String :=
  "\n\n--- Page " ++ toString n ++ " ---\n\n"

/- page_text = '\n'.join(lines); separator appended when the page is not
   the last one. -/
def pageTexts (pages : List (List String)) : List String :=
  pages.enum.map (fun p =>
    if p.1 < pages.length - 1 then
      String.intercalate "\n" p.2 ++ pageSep (p.1 + 1)
    else
      String.intercalate "\n" p.2)

/- text_file.write('\n'.join(all_pages_text)) -/
def assembleDocument (pages : List (List String)) : String :=
  String.intercalate "\n" (pageTexts pages)

/- text.strip(): drop whitespace from both ends. -/
def trimChars (l : List Char) : List Char :=
  (((l.dropWhile Char.isWhitespace).reverse).dropWhile Char.isWhitespace).reverse

def strTrim (s : String) : String :=
  String.mk (trimChars s.data)

/- visitor_body: keep (text.strip(), y) only when text.strip() is
   non-empty. -/
def extractFiltered (elems : List (String × ℚ)) : List Fragment :=
  elems.filterMap (fun p =>
    if strTrim p.1 = "" then none else some ⟨strTrim p.1, p.2⟩)

/- ## Basic properties of the flush and the loop accumulator -/

theorem flushLine_of_ne_nil {cur : List Fragment} (h : cur ≠ []) :
    flushLine cur = [cur] := by
  simp [flushLine, h]

theorem flushLine_flatten (cur : List Fragment) :
    (flushLine cur).flatten = cur := by
  unfold flushLine
  rcases cur with _ | ⟨f, fs⟩ <;> simp

theorem flushLine_ne_nil (cur : List Fragment) :
    ∀ l ∈ flushLine cur, l ≠ [] := by
  unfold flushLine
  rcases cur with _ | ⟨f, fs⟩ <;> simp

theorem groupGo_acc (t : ℚ) :
    ∀ (fs : List Fragment) (lines : List (List Fragment)) (cur : List Fragment) (y : Option ℚ),
    groupGo t fs lines cur y = lines ++ groupGo t fs [] cur y := by
  intro fs
  induction fs with
  | nil => intro lines cur y; simp [groupGo]
  | cons f rest ih =>
    intro lines cur y
    simp only [groupGo]
    split
    · exact ih lines (cur ++ [f]) (some (y.getD f.yPos))
    · rw [ih (lines ++ flushLine cur) [f] (some f.yPos),
        ih ([] ++ flushLine cur) [f] (some f.yPos)]
      simp

theorem groupGo_flatten (t : ℚ) :
    ∀ (fs : List Fragment) (lines : List (List Fragment)) (cur : List Fragment) (y : Option ℚ),
    (groupGo t fs lines cur y).flatten = lines.flatten ++ cur ++ fs := by
  intro fs
  induction fs with
  | nil =>
    intro lines cur y
    simp [groupGo, List.flatten_append, flushLine_flatten]
  | cons f rest ih =>
    intro lines cur y
    simp only [groupGo]
    split
    · rw [ih]; simp
    · rw [ih]; simp [List.flatten_append, flushLine_flatten]

theorem groupGo_ne_nil (t : ℚ) :
    ∀ (fs : List Fragment) (lines : List (List Fragment)) (cur : List Fragment) (y : Option ℚ),
    (∀ l ∈ lines, l ≠ []) → ∀ l ∈ groupGo t fs lines cur y, l ≠ [] := by
  intro fs
  induction fs with
  | nil =>
    intro lines cur y hl l hmem
    rw [groupGo] at hmem
    rcases List.mem_append.1 hmem with h | h
    · exact hl l h
    · exact flushLine_ne_nil cur l h
  | cons f rest ih =>
    intro lines cur y hl l hmem
    rw [groupGo] at hmem
    split at hmem
    · exact ih lines (cur ++ [f]) (some (y.getD f.yPos)) hl l hmem
    · refine ih (lines ++ flushLine cur) [f] (some f.yPos) ?_ l hmem
      intro l2 h2
      rcases List.mem_append.1 h2 with h | h
      · exact hl l2 h
      · exact flushLine_ne_nil cur l2 h

/- ## The sort: permutation, descending order, stability -/

theorem insertFrag_perm (f : Fragment) :
    ∀ l : List Fragment, (insertFrag f l).Perm (f :: l) := by
  intro l
  induction l with
  | nil => simp [insertFrag]
  | cons g gs ih =>
    rw [insertFrag]
    split
    · exact (ih.cons g).trans (List.Perm.swap f g gs)
    · exact List.Perm.refl _

theorem sortFrags_perm : ∀ l : List Fragment, (sortFrags l).Perm l := by
  intro l
  induction l with
  | nil => simp [sortFrags]
  | cons f fs ih =>
    rw [sortFrags]
    exact (insertFrag_perm f (sortFrags fs)).trans (ih.cons f)

theorem mem_insertFrag {x f : Fragment} {l : List Fragment} :
    x ∈ insertFrag f l ↔ x = f ∨ x ∈ l := by
  rw [(insertFrag_perm f l).mem_iff, List.mem_cons]

theorem insertFrag_sorted (f : Fragment) {l : List Fragment}
    (h : List.Pairwise (fun x y => y.yPos ≤ x.yPos) l) :
    List.Pairwise (fun x y => y.yPos ≤ x.yPos) (insertFrag f l) := by
  induction l with
  | nil => simp [insertFrag]
  | cons g gs ih =>
    rw [List.pairwise_cons] at h
    rw [insertFrag]
    split
    · rw [List.pairwise_cons]
      constructor
      · intro x hx
        rcases mem_insertFrag.1 hx with rfl | hx
        · exact le_of_lt (by assumption)
        · exact h.1 x hx
      · exact ih h.2
    · rw [List.pairwise_cons]
      constructor
      · intro x hx
        rcases List.mem_cons.1 hx with rfl | hx
        · exact le_of_not_lt (by assumption)
        · exact (h.1 x hx).trans (le_of_not_lt (by assumption))
      · exact List.pairwise_cons.2 h

theorem sortFrags_sorted :
    ∀ l : List Fragment, List.Pairwise (fun x y => y.yPos ≤ x.yPos) (sortFrags l) := by
  intro l
  induction l with
  | nil => simp [sortFrags]
  | cons f fs ih => exact insertFrag_sorted f ih

theorem insertFrag_filter (f : Fragment) (c : ℚ) :
    ∀ l : List Fragment,
    (insertFrag f l).filter (fun g => decide (g.yPos = c)) =
      if f.yPos = c then f :: l.filter (fun g => decide (g.yPos = c))
      else l.filter (fun g => decide (g.yPos = c)) := by
  intro l
  induction l with
  | nil => by_cases hf : f.yPos = c <;> simp [insertFrag, hf]
  | cons g gs ih =>
    rw [insertFrag]
    by_cases hfg : f.yPos < g.yPos
    · rw [if_pos hfg]
      by_cases hg : g.yPos = c
      · have hf : ¬ f.yPos = c := by
          intro hf; rw [hf, hg] at hfg; exact lt_irrefl c hfg
        simp [List.filter_cons, hg, hf, ih]
      · simp [List.filter_cons, hg, ih]
    · rw [if_neg hfg]
      by_cases hf : f.yPos = c <;> simp [List.filter_cons, hf]

theorem sortFrags_filter (c : ℚ) :
    ∀ l : List Fragment,
    (sortFrags l).filter (fun g => decide (g.yPos = c)) =
      l.filter (fun g => decide (g.yPos = c)) := by
  intro l
  induction l with
  | nil => simp [sortFrags]
  | cons f fs ih =>
    rw [sortFrags, insertFrag_filter, List.filter_cons]
    by_cases hf : f.yPos = c <;> simp [hf, ih]

/- ## Generic list helpers -/

theorem sublist_flatten_of_mem {α : Type} :
    ∀ (L : List (List α)) (l : List α), l ∈ L → l.Sublist L.flatten := by
  intro L
  induction L with
  | nil => simp
  | cons x xs ih =>
    intro l hl
    rw [List.flatten_cons]
    rcases List.mem_cons.1 hl with rfl | hl
    · exact List.sublist_append_left l xs.flatten
    · exact (ih l hl).trans (List.sublist_append_right x xs.flatten)

theorem length_le_sum_lengths {α : Type} :
    ∀ L : List (List α), (∀ l ∈ L, l ≠ []) → L.length ≤ (L.map List.length).sum := by
  intro L
  induction L with
  | nil => simp
  | cons x xs ih =>
    intro h
    have hx : 1 ≤ x.length := by
      have := h x (List.mem_cons_self x xs)
      rcases x with _ | ⟨a, as⟩
      · exact absurd rfl this
      · simp
    have := ih (fun l hl => h l (List.mem_cons_of_mem x hl))
    simp only [List.length_cons, List.map_cons, List.sum_cons]
    omega

/- ## Head-anchor helpers -/

theorem headY_cons (f : Fragment) (l : List Fragment) : headY (f :: l) = f.yPos := rfl

theorem headY_append_of_ne_nil {cur : List Fragment} (h : cur ≠ []) (l2 : List Fragment) :
    headY (cur ++ l2) = headY cur := by
  rcases cur with _ | ⟨f, fs⟩
  · exact absurd rfl h
  · rfl

/- ## Master invariant of the grouping loop.

   Starting from a pending line cur whose anchor a is the position of its
   first fragment, with the remaining fragments sorted below cur, the loop
   produces lines that are each anchored at their first fragment, whose
   anchors strictly decrease by more than the threshold, whose first
   anchor is a, and that are each internally sorted by descending
   position. -/

theorem groupGo_master (t : ℚ) (ht : 0 ≤ t) :
    ∀ (fs cur : List Fragment) (a : ℚ),
    cur ≠ [] →
    headY cur = a →
    (∀ g ∈ cur, |g.yPos - a| ≤ t) →
    List.Pairwise (fun x y => y.yPos ≤ x.yPos) (cur ++ fs) →
    (∀ l ∈ groupGo t fs [] cur (some a), ∀ g ∈ l, |g.yPos - headY l| ≤ t)
    ∧ List.Chain' (fun l1 l2 => headY l2 < headY l1 - t) (groupGo t fs [] cur (some a))
    ∧ (groupGo t fs [] cur (some a)).head?.map headY = some a
    ∧ (∀ l ∈ groupGo t fs [] cur (some a), List.Pairwise (fun x y => y.yPos ≤ x.yPos) l) := by
  intro fs
  induction fs with
  | nil =>
    intro cur a hne hhead hanch hsort
    have hg : groupGo t [] [] cur (some a) = [cur] := by
      rw [groupGo, flushLine_of_ne_nil hne]
      simp
    rw [List.append_nil] at hsort
    rw [hg]
    refine ⟨?_, ?_, ?_, ?_⟩
    · intro l hl g hgmem
      rw [List.mem_singleton] at hl
      subst hl
      rw [hhead]
      exact hanch g hgmem
    · simp
    · simp [hhead]
    · intro l hl
      rw [List.mem_singleton] at hl
      subst hl
      exact hsort
  | cons f rest ih =>
    intro cur a hne hhead hanch hsort
    rcases cur with _ | ⟨h0, cs⟩
    · exact absurd rfl hne
    rw [headY_cons] at hhead
    have hfa : f.yPos ≤ a := by
      rw [← hhead]
      exact (List.pairwise_cons.1 hsort).1 f (by simp)
    have heq : groupGo t (f :: rest) [] (h0 :: cs) (some a) =
        (if |f.yPos - a| ≤ t then groupGo t rest [] ((h0 :: cs) ++ [f]) (some a)
         else (h0 :: cs) :: groupGo t rest [] [f] (some f.yPos)) := by
      rw [groupGo]
      simp only [Option.getD_some]
      split
      · rfl
      · rw [List.nil_append, flushLine_of_ne_nil hne, groupGo_acc, List.singleton_append]
    rw [heq]
    by_cases hcase : |f.yPos - a| ≤ t
    · rw [if_pos hcase]
      apply ih ((h0 :: cs) ++ [f]) a (by simp)
      · rw [headY_append_of_ne_nil hne, headY_cons]
        exact hhead
      · intro g hg
        rcases List.mem_append.1 hg with hg | hg
        · exact hanch g hg
        · rw [List.mem_singleton] at hg
          subst hg
          exact hcase
      · rw [List.append_assoc, List.singleton_append]
        exact hsort
    · rw [if_neg hcase]
      have hkey : f.yPos < a - t := by
        have h1 : ¬ (a - f.yPos ≤ t) := by
          rw [abs_sub_comm, abs_of_nonneg (sub_nonneg.2 hfa)] at hcase
          exact hcase
        linarith [not_le.1 h1]
      have hih := ih [f] f.yPos (by simp) (by rw [headY_cons])
        (by intro g hg; rw [List.mem_singleton] at hg; subst hg; simp [ht])
        (by
          rw [List.singleton_append]
          exact List.Pairwise.sublist (List.sublist_append_right _ _) hsort)
      refine ⟨?_, ?_, ?_, ?_⟩
      · intro l hl g hgmem
        rcases List.mem_cons.1 hl with rfl | hl
        · rw [headY_cons, hhead]
          exact hanch g hgmem
        · exact hih.1 l hl g hgmem
      · rw [List.chain'_cons']
        refine ⟨?_, hih.2.1⟩
        intro b hb
        rw [Option.mem_def] at hb
        have h2 := hih.2.2.1
        rw [hb] at h2
        have hbY : headY b = f.yPos := by simpa using h2
        rw [headY_cons, hhead, hbY]
        exact hkey
      · simp [headY_cons, hhead]
      · intro l hl
        rcases List.mem_cons.1 hl with rfl | hl
        · exact List.Pairwise.sublist (List.sublist_append_left _ _) hsort
        · exact hih.2.2.2 l hl

/- ## Master facts lifted to groupFragments -/

theorem groupFragments_props (t : ℚ) (ht : 0 ≤ t) (frags : List Fragment) :
    (∀ l ∈ groupFragments t frags, ∀ g ∈ l, |g.yPos - headY l| ≤ t)
    ∧ List.Chain' (fun l1 l2 => headY l2 < headY l1 - t) (groupFragments t frags)
    ∧ (∀ l ∈ groupFragments t frags, List.Pairwise (fun x y => y.yPos ≤ x.yPos) l) := by
  have hsorted := sortFrags_sorted frags
  unfold groupFragments
  rcases hs : sortFrags frags with _ | ⟨f, rest⟩
  · rw [hs] at hsorted
    simp [groupGo, flushLine]
  · rw [hs] at hsorted
    have heq : groupGo t (f :: rest) [] [] none = groupGo t rest [] [f] (some f.yPos) := by
      rw [groupGo]
      simp only [Option.getD_none]
      rw [if_pos (by simp [ht])]
      rfl
    rw [heq]
    have hm := groupGo_master t ht rest [f] f.yPos (by simp) (by rw [headY_cons])
      (by intro g hg; rw [List.mem_singleton] at hg; subst hg; simp [ht])
      (by rw [List.singleton_append]; exact hsorted)
    exact ⟨hm.1, hm.2.1, hm.2.2.2⟩

theorem groupFragments_flatten (t : ℚ) (frags : List Fragment) :
    (groupFragments t frags).flatten = sortFrags frags := by
  unfold groupFragments
  rw [groupGo_flatten]
  simp

theorem groupFragments_flatten_perm (t : ℚ) (frags : List Fragment) :
    ((groupFragments t frags).flatten).Perm frags := by
  rw [groupFragments_flatten]
  exact sortFrags_perm frags

theorem groupFragments_lines_ne_nil (t : ℚ) (frags : List Fragment) :
    ∀ l ∈ groupFragments t frags, l ≠ [] := by
  unfold groupFragments
  exact groupGo_ne_nil t (sortFrags frags) [] [] none (by simp)

/- ## Page assembly lemmas -/

theorem pageTexts_length (pages : List (List String)) :
    (pageTexts pages).length = pages.length := by
  simp [pageTexts, List.enum_length]

theorem pageTexts_get? (pages : List (List String)) (i : ℕ) :
    (pageTexts pages).get? i =
      (pages.get? i).map (fun lines =>
        if i < pages.length - 1 then
          String.intercalate "\n" lines ++ pageSep (i + 1)
        else
          String.intercalate "\n" lines) := by
  unfold pageTexts
  rw [List.get?_map, List.get?_enum]
  rcases h : pages.get? i with _ | lines <;> simp

theorem pageTexts_getLast? (pages : List (List String)) :
    (pageTexts pages).getLast? =
      (pages.getLast?).map (fun lines => String.intercalate "\n" lines) := by
  rw [List.getLast?_eq_getElem?, List.getLast?_eq_getElem?, pageTexts_length,
    ← List.get?_eq_getElem?, ← List.get?_eq_getElem?, pageTexts_get?]
  rcases h : pages.get? (pages.length - 1) with _ | lines <;> simp


/- ## Concrete inputs from the specified examples, and their evaluations -/

def ex1 : List Fragment := [⟨"Total:", 500⟩, ⟨"$42.00", 500.3⟩, ⟨"Date:", 480⟩]

def ex2 : List Fragment :=
  [⟨"100-text", 100⟩, ⟨"99.4-text", 99.4⟩, ⟨"98.9-text", 98.9⟩, ⟨"98.3-text", 98.3⟩]

def ex10 : List Fragment := [⟨"a", 100⟩, ⟨"b", 99.2⟩, ⟨"c", 98.9⟩]

theorem groupFragments_ex1 :
    groupFragments 1 ex1 = [[⟨"$42.00", 500.3⟩, ⟨"Total:", 500⟩], [⟨"Date:", 480⟩]] := by
  norm_num [groupFragments, ex1, sortFrags, insertFrag, groupGo, flushLine, abs_le]

theorem lines_ex1 :
    groupFragmentsIntoLines 1 ex1 = ["$42.00 Total:", "Date:"] := by
  rw [groupFragmentsIntoLines, groupFragments_ex1]
  rfl

theorem groupFragments_ex2 :
    groupFragments 1 ex2 =
      [[⟨"100-text", 100⟩, ⟨"99.4-text", 99.4⟩], [⟨"98.9-text", 98.9⟩, ⟨"98.3-text", 98.3⟩]] := by
  norm_num [groupFragments, ex2, sortFrags, insertFrag, groupGo, flushLine, abs_le]

theorem lines_ex2 :
    groupFragmentsIntoLines 1 ex2 = ["100-text 99.4-text", "98.9-text 98.3-text"] := by
  rw [groupFragmentsIntoLines, groupFragments_ex2]
  rfl

theorem groupFragments_ws :
    groupFragments 1 [⟨" ", 100⟩] = [[⟨" ", 100⟩]] := by
  norm_num [groupFragments, sortFrags, insertFrag, groupGo, flushLine, abs_le]

theorem groupFragments_ex10 :
    groupFragments 1 ex10 = [[⟨"a", 100⟩, ⟨"b", 99.2⟩], [⟨"c", 98.9⟩]] := by
  norm_num [groupFragments, ex10, sortFrags, insertFrag, groupGo, flushLine, abs_le]

theorem groupFragments_ties :
    groupFragments 1 [⟨"a", 5⟩, ⟨"b", 5⟩] = [[⟨"a", 5⟩, ⟨"b", 5⟩]] := by
  norm_num [groupFragments, sortFrags, insertFrag, groupGo, flushLine, abs_le]

/- ## Claims -/

/-- C1 counterexample: on the fragments ("Total:", 500), ("$42.00", 500.3),
("Date:", 480) with threshold 1 the first reconstructed line is not
"Total: $42.00": the descending sort places the fragment at 500.3 before the
one at 500, so the claimed output is wrong. -/
theorem C1_counterexample :
    groupFragmentsIntoLines 1 ex1 ≠ ["Total: $42.00", "Date:"] := by
  intro h
  rw [lines_ex1] at h
  simp at h

/-- C1 amended: two lines whose joined contents are, in order,
"$42.00 Total:" (representative y = 500.3, approximately 500; within a line
fragments appear in descending position order) followed by "Date:" (y = 480). -/
theorem C1_corrected :
    groupFragmentsIntoLines 1 ex1 = ["$42.00 Total:", "Date:"]
    ∧ (groupFragments 1 ex1).map headY = [500.3, 480] := by
  refine ⟨lines_ex1, ?_⟩
  rw [groupFragments_ex1]
  rfl

/-- C2: once a line is started its anchor is the position of the first
fragment assigned to it and is never updated: every fragment of every output
line is within the threshold of the position of the first fragment of that
line; and on fragments at y = 100, 99.4, 98.9, 98.3 with threshold 1 the
output is exactly the two claimed lines. -/
theorem C2_confirmed (t : ℚ) (frags l : List Fragment) (g : Fragment)
    (ht : 0 ≤ t) (hl : l ∈ groupFragments t frags) (hg : g ∈ l) :
    |g.yPos - headY l| ≤ t
    ∧ groupFragmentsIntoLines 1 ex2 = ["100-text 99.4-text", "98.9-text 98.3-text"] :=
  ⟨(groupFragments_props t ht frags).1 l hl g hg, lines_ex2⟩

/-- C2 witness: threshold 1 on the concrete four fragments. -/
theorem C2_witness :
    (0 : ℚ) ≤ 1
    ∧ [(⟨"100-text", 100⟩ : Fragment), ⟨"99.4-text", 99.4⟩] ∈ groupFragments 1 ex2
    ∧ (⟨"99.4-text", 99.4⟩ : Fragment) ∈ [(⟨"100-text", 100⟩ : Fragment), ⟨"99.4-text", 99.4⟩]
    ∧ (|(⟨"99.4-text", 99.4⟩ : Fragment).yPos -
          headY [(⟨"100-text", 100⟩ : Fragment), ⟨"99.4-text", 99.4⟩]| ≤ 1
       ∧ groupFragmentsIntoLines 1 ex2 = ["100-text 99.4-text", "98.9-text 98.3-text"]) := by
  have hl : [(⟨"100-text", 100⟩ : Fragment), ⟨"99.4-text", 99.4⟩] ∈ groupFragments 1 ex2 := by
    rw [groupFragments_ex2]
    exact List.mem_cons_self _ _
  have hg : (⟨"99.4-text", 99.4⟩ : Fragment) ∈
      [(⟨"100-text", 100⟩ : Fragment), ⟨"99.4-text", 99.4⟩] :=
    List.mem_cons_of_mem _ (List.mem_cons_self _ _)
  exact ⟨by norm_num, hl, hg, C2_confirmed 1 ex2 _ _ (by norm_num) hl hg⟩

/-- C3 counterexample: joining the page texts with a newline adds one more
newline after the separator, so the claimed assembled string is wrong. -/
theorem C3_counterexample :
    assembleDocument [["A", "B"], ["C"]] ≠ "A\nB\n\n--- Page 1 ---\n\nC" := by
  intro h
  have h1 : assembleDocument [["A", "B"], ["C"]] = "A\nB\n\n--- Page 1 ---\n\n\nC" := rfl
  rw [h1] at h
  simp at h

/-- C3 amended: every non-last page gets the literal separator carrying the
1-based index of the page just emitted, and the page texts are then joined
with a newline, so pages [["A","B"], ["C"]] assemble to
"A\nB\n\n--- Page 1 ---\n\n\nC" (three newlines before C: two ending the
separator plus one from the join). -/
theorem C3_corrected :
    assembleDocument [["A", "B"], ["C"]] = "A\nB\n\n--- Page 1 ---\n\n\nC" := rfl

/-- C4 counterexample: the grouping does not filter, so for a single
whitespace-only fragment the output lines hold one content while zero input
fragments have non-empty trimmed content. -/
theorem C4_counterexample :
    ((groupFragments 1 [⟨" ", 100⟩]).map List.length).sum = 1
    ∧ ([(⟨" ", 100⟩ : Fragment)].filter
        (fun f => !((strTrim f.content).isEmpty))).length = 0 := by
  refine ⟨?_, rfl⟩
  rw [groupFragments_ws]
  rfl

/-- C4 amended: every input fragment, regardless of content, appears in
exactly one output line: the concatenation of the output lines is a
permutation of the input, the total content count equals the input length,
the line count is at most the fragment count, and a non-empty input yields a
non-empty line sequence. -/
theorem C4_corrected (t : ℚ) (frags : List Fragment) (h : frags ≠ []) :
    ((groupFragments t frags).flatten).Perm frags
    ∧ ((groupFragments t frags).map List.length).sum = frags.length
    ∧ (groupFragments t frags).length ≤ frags.length
    ∧ groupFragmentsIntoLines t frags ≠ [] := by
  have hperm := groupFragments_flatten_perm t frags
  have hsum : ((groupFragments t frags).map List.length).sum = frags.length := by
    rw [← List.length_flatten, hperm.length_eq]
  have hne := groupFragments_lines_ne_nil t frags
  refine ⟨hperm, hsum, ?_, ?_⟩
  · calc (groupFragments t frags).length
        ≤ ((groupFragments t frags).map List.length).sum := length_le_sum_lengths _ hne
      _ = frags.length := hsum
  · intro hnil
    unfold groupFragmentsIntoLines at hnil
    rw [List.map_eq_nil_iff] at hnil
    rw [hnil] at hperm
    simp only [List.flatten_nil] at hperm
    exact h hperm.symm.eq_nil

/-- C4 witness at threshold 1 on a one-fragment input. -/
theorem C4_witness :
    ([(⟨"w", 5⟩ : Fragment)] ≠ [])
    ∧ (((groupFragments 1 [⟨"w", 5⟩]).flatten).Perm [⟨"w", 5⟩]
       ∧ ((groupFragments 1 [⟨"w", 5⟩]).map List.length).sum = [(⟨"w", 5⟩ : Fragment)].length
       ∧ (groupFragments 1 [⟨"w", 5⟩]).length ≤ [(⟨"w", 5⟩ : Fragment)].length
       ∧ groupFragmentsIntoLines 1 [⟨"w", 5⟩] ≠ []) :=
  ⟨List.cons_ne_nil _ _, C4_corrected 1 [⟨"w", 5⟩] (List.cons_ne_nil _ _)⟩

/-- C5 counterexample: a whitespace-only fragment handed directly to the
grouping appears verbatim in an output line: the grouping itself does not
re-filter. -/
theorem C5_counterexample :
    groupFragmentsIntoLines 1 [⟨" ", 100⟩] = [" "] ∧ strTrim " " = "" := by
  refine ⟨?_, rfl⟩
  rw [groupFragmentsIntoLines, groupFragments_ws]
  rfl

/-- C5 amended: the grouping passes every fragment through unfiltered (the
flattened output is a permutation of the input); defensive filtering happens
only in the visitor, whose every produced fragment has as content the
trimmed text of some input element with non-empty trimmed text. -/
theorem C5_corrected (t : ℚ) (frags : List Fragment) (elems : List (String × ℚ))
    (f : Fragment) (hf : f ∈ extractFiltered elems) :
    ((groupFragments t frags).flatten).Perm frags
    ∧ ∃ p ∈ elems, f.content = strTrim p.1 ∧ strTrim p.1 ≠ "" := by
  refine ⟨groupFragments_flatten_perm t frags, ?_⟩
  unfold extractFiltered at hf
  rw [List.mem_filterMap] at hf
  obtain ⟨p, hp, hpf⟩ := hf
  by_cases hb : strTrim p.1 = ""
  · rw [if_pos hb] at hpf
    exact absurd hpf (by simp)
  · rw [if_neg hb] at hpf
    refine ⟨p, hp, ?_, hb⟩
    rw [← Option.some.inj hpf]

/-- C5 witness on a single visitor element with surrounding whitespace. -/
theorem C5_witness :
    (⟨"hi", 7⟩ : Fragment) ∈ extractFiltered [("  hi ", 7)]
    ∧ (((groupFragments 1 [⟨"x", 0⟩]).flatten).Perm [⟨"x", 0⟩]
       ∧ ∃ p ∈ [("  hi ", (7 : ℚ))],
           (⟨"hi", 7⟩ : Fragment).content = strTrim p.1 ∧ strTrim p.1 ≠ "") := by
  have hf : (⟨"hi", 7⟩ : Fragment) ∈ extractFiltered [("  hi ", 7)] := by
    rw [show extractFiltered [("  hi ", 7)] = [⟨"hi", 7⟩] from rfl]
    exact List.mem_cons_self _ _
  exact ⟨hf, C5_corrected 1 [⟨"x", 0⟩] [("  hi ", 7)] _ hf⟩

/-- C6: for any threshold t at least 0, two fragments exactly t apart end up
in the same line, while two fragments t + e apart (for any e greater than 0)
are split into two lines. -/
theorem C6_confirmed (t e : ℚ) (f1 f2 g1 g2 : Fragment)
    (ht : 0 ≤ t) (he : 0 < e)
    (h1 : f1.yPos - f2.yPos = t) (h2 : g1.yPos - g2.yPos = t + e) :
    groupFragments t [f1, f2] = [[f1, f2]]
    ∧ groupFragments t [g1, g2] = [[g1], [g2]] := by
  constructor
  · have hs : sortFrags [f1, f2] = [f1, f2] := by
      simp only [sortFrags, insertFrag]
      rw [if_neg (not_lt.2 (by linarith : f2.yPos ≤ f1.yPos))]
    have c2 : |f2.yPos - f1.yPos| ≤ t := by
      rw [abs_sub_comm, h1, abs_of_nonneg ht]
    unfold groupFragments
    rw [hs, groupGo]
    simp only [Option.getD_none]
    rw [if_pos (show |f1.yPos - f1.yPos| ≤ t by simp [ht])]
    simp only [List.nil_append]
    rw [groupGo]
    simp only [Option.getD_some]
    rw [if_pos c2, groupGo]
    rfl
  · have hs : sortFrags [g1, g2] = [g1, g2] := by
      simp only [sortFrags, insertFrag]
      rw [if_neg (not_lt.2 (by linarith : g2.yPos ≤ g1.yPos))]
    have c2 : ¬ |g2.yPos - g1.yPos| ≤ t := by
      rw [abs_sub_comm, h2, abs_of_nonneg (by linarith : (0 : ℚ) ≤ t + e)]
      exact not_le.2 (by linarith)
    unfold groupFragments
    rw [hs, groupGo]
    simp only [Option.getD_none]
    rw [if_pos (show |g1.yPos - g1.yPos| ≤ t by simp [ht])]
    simp only [List.nil_append]
    rw [groupGo]
    simp only [Option.getD_some]
    rw [if_neg c2, groupGo]
    rfl

/-- C6 witness: threshold 1, a pair exactly 1 apart and a pair 2 = 1 + 1
apart. -/
theorem C6_witness :
    (0 : ℚ) ≤ 1 ∧ (0 : ℚ) < 1
    ∧ (⟨"a", 2⟩ : Fragment).yPos - (⟨"b", 1⟩ : Fragment).yPos = 1
    ∧ (⟨"c", 3⟩ : Fragment).yPos - (⟨"d", 1⟩ : Fragment).yPos = 1 + 1
    ∧ (groupFragments 1 [⟨"a", 2⟩, ⟨"b", 1⟩] = [[⟨"a", 2⟩, ⟨"b", 1⟩]]
       ∧ groupFragments 1 [⟨"c", 3⟩, ⟨"d", 1⟩] = [[⟨"c", 3⟩], [⟨"d", 1⟩]]) :=
  ⟨by norm_num, by norm_num, by norm_num, by norm_num,
    C6_confirmed 1 1 _ _ _ _ (by norm_num) (by norm_num) (by norm_num) (by norm_num)⟩

/-- C7: the sort is stable on descending position: for each position c the
fragments at c keep exactly their original order after sorting; moreover
every output line is internally in descending position order, and the
fragments of a line that share a position c appear as an order-preserving
selection of the input fragments at c. -/
theorem C7_confirmed (t c : ℚ) (frags l : List Fragment)
    (ht : 0 ≤ t) (hl : l ∈ groupFragments t frags) :
    (sortFrags frags).filter (fun g => decide (g.yPos = c)) =
      frags.filter (fun g => decide (g.yPos = c))
    ∧ List.Pairwise (fun x y => y.yPos ≤ x.yPos) l
    ∧ (l.filter (fun g => decide (g.yPos = c))).Sublist
        (frags.filter (fun g => decide (g.yPos = c))) := by
  refine ⟨sortFrags_filter c frags, (groupFragments_props t ht frags).2.2 l hl, ?_⟩
  have h1 : l.Sublist (sortFrags frags) := by
    rw [← groupFragments_flatten t frags]
    exact sublist_flatten_of_mem _ l hl
  have h2 := List.Sublist.filter (fun g => decide (g.yPos = c)) h1
  rw [sortFrags_filter c frags] at h2
  exact h2

/-- C7 witness: two fragments tied at position 5 with threshold 1. -/
theorem C7_witness :
    (0 : ℚ) ≤ 1
    ∧ [(⟨"a", 5⟩ : Fragment), ⟨"b", 5⟩] ∈ groupFragments 1 [⟨"a", 5⟩, ⟨"b", 5⟩]
    ∧ ((sortFrags [⟨"a", 5⟩, ⟨"b", 5⟩]).filter (fun g => decide (g.yPos = 5)) =
        [(⟨"a", 5⟩ : Fragment), ⟨"b", 5⟩].filter (fun g => decide (g.yPos = 5))
       ∧ List.Pairwise (fun x y => y.yPos ≤ x.yPos) [(⟨"a", 5⟩ : Fragment), ⟨"b", 5⟩]
       ∧ (([(⟨"a", 5⟩ : Fragment), ⟨"b", 5⟩].filter (fun g => decide (g.yPos = 5))).Sublist
           ([(⟨"a", 5⟩ : Fragment), ⟨"b", 5⟩].filter (fun g => decide (g.yPos = 5))))) := by
  have hl : [(⟨"a", 5⟩ : Fragment), ⟨"b", 5⟩] ∈ groupFragments 1 [⟨"a", 5⟩, ⟨"b", 5⟩] := by
    rw [groupFragments_ties]
    exact List.mem_cons_self _ _
  exact ⟨by norm_num, hl, C7_confirmed 1 5 [⟨"a", 5⟩, ⟨"b", 5⟩] _ (by norm_num) hl⟩

/-- C8: the separator rule is purely positional: a non-last page with zero
lines contributes the empty string yet is still followed by its separator
(its page text is exactly the separator), and the last page text is just its
joined lines with no separator, whatever its content. -/
theorem C8_confirmed (P Q : List (List String)) (i : ℕ)
    (hi : i < P.length - 1) (he : P.get? i = some []) :
    (pageTexts P).get? i = some (pageSep (i + 1))
    ∧ (pageTexts Q).getLast? =
        (Q.getLast?).map (fun lines => String.intercalate "\n" lines) := by
  refine ⟨?_, pageTexts_getLast? Q⟩
  rw [pageTexts_get?, he]
  have hemp : (String.intercalate "\n" ([] : List String)) = "" := rfl
  simp [hi, hemp]

/-- C8 witness: an empty first page of two, and a two-page document whose
last page has two lines. -/
theorem C8_witness :
    (0 < [([] : List String), ["X"]].length - 1)
    ∧ [([] : List String), ["X"]].get? 0 = some []
    ∧ ((pageTexts [([] : List String), ["X"]]).get? 0 = some (pageSep (0 + 1))
       ∧ (pageTexts [["A", "B"], ["C", "D"]]).getLast? =
           ([["A", "B"], ["C", "D"]].getLast?).map
             (fun lines => String.intercalate "\n" lines)) :=
  ⟨by norm_num, rfl, C8_confirmed [[], ["X"]] [["A", "B"], ["C", "D"]] 0 (by norm_num) rfl⟩

/-- C9: the empty fragment sequence yields the empty line sequence: no
trailing flush of an empty line, and no failure (the grouping is a total
function). -/
theorem C9_confirmed (t : ℚ) :
    groupFragmentsIntoLines t [] = [] ∧ groupFragments t [] = [] :=
  ⟨rfl, rfl⟩

/-- C10 counterexample: at threshold 1 the fragments at 100 and 99.2 form one
line and the one at 98.9 the next, yet 99.2 and 98.9 lie in distinct lines
only 0.3 apart: the y-ranges of distinct lines do come within the
threshold. -/
theorem C10_counterexample :
    groupFragments 1 ex10 = [[⟨"a", 100⟩, ⟨"b", 99.2⟩], [⟨"c", 98.9⟩]]
    ∧ |(99.2 : ℚ) - 98.9| < 1 := by
  refine ⟨groupFragments_ex10, ?_⟩
  rw [abs_sub_lt_iff]
  constructor <;> norm_num

/-- C10 amended: the representative positions of consecutive lines (each the
position of the first fragment of the line) strictly decrease by more than
the threshold, so lines are ordered strictly top to bottom; the stronger
claim about whole y-ranges staying a threshold apart is dropped. -/
theorem C10_corrected (t : ℚ) (frags : List Fragment) (ht : 0 ≤ t) :
    List.Chain' (fun l1 l2 => headY l2 < headY l1 - t) (groupFragments t frags) :=
  (groupFragments_props t ht frags).2.1

/-- C10 witness at threshold 1 on the three concrete fragments. -/
theorem C10_witness :
    (0 : ℚ) ≤ 1
    ∧ List.Chain' (fun l1 l2 => headY l2 < headY l1 - 1) (groupFragments 1 ex10) :=
  ⟨by norm_num, C10_corrected 1 ex10 (by norm_num)⟩
